import Mathlib

/-!
Shallow embedding of the interval-set data structure in src/intset.rs.

The Rust code is generic over an integer type `T : Int` (pre-1.0 Rust's
bounded-integer trait) with `saturating_sub` / `saturating_add`.  We model
the domain as mathematical integers confined to a parameter interval
[MIN, MAX]; the saturating step operations clamp at MIN and MAX.

`TreeMap<T, T>` (keys in ascending order, key = interval high endpoint,
value = interval low endpoint) is modelled as a key-sorted association
list `List (Int × Int)`, entry `(high, low)`.  `lower_bound n` on a
key-sorted list is the suffix starting at the first key that is not
less than `n`, i.e. `dropWhile (key < n)`.
-/

namespace IntSet

/-- The ordered mapping backing the set: entries (high, low), keys ascending. -/
abbrev IMap := List (Int × Int)

/-- Rust saturating_sub by one: low - 1, clamped at the domain minimum. -/
def satPred (MIN x : Int) : Int := max (x - 1) MIN

/-- Rust saturating_add of one: high + 1, clamped at the domain maximum. -/
def satSucc (MAX x : Int) : Int := min (x + 1) MAX

/-- IntSet::new : the empty mapping. -/
def new : IMap := []

/-- IntSet::find : iterator at the first range (low, high) with high >= n,
modelled as the suffix of the key-sorted list from that entry on. -/
def find (m : IMap) (n : Int) : IMap := m.dropWhile (fun e => decide (e.1 < n))

/-- IntSet::contains : the first range with high >= n contains n iff n >= low. -/
def contains (m : IMap) (n : Int) : Bool :=
  match find m n with
  | [] => false
  | (_, low) :: _ => decide (low ≤ n)

/-- TreeMap::remove : drop the entry with the given key; the Bool is
removed.is_some (whether the key was present). -/
def removeKey : IMap → Int → IMap × Bool
  | [], _ => ([], false)
  | (h, l) :: rest, k =>
    if h = k then (rest, true)
    else
      let r := removeKey rest k
      ((h, l) :: r.1, r.2)

/-- The removal loop of add_range: remove every collected key in order;
the Bool is the conjunction of the removed.is_some assertions. -/
def removeAll : IMap → List Int → IMap × Bool
  | m, [] => (m, true)
  | m, k :: ks =>
    let r := removeKey m k
    let r2 := removeAll r.1 ks
    (r2.1, r.2 && r2.2)

/-- TreeMap::insert : sorted insert of (k, v); the Bool is
existing.is_some (whether the key was already present, in which case the
old entry is replaced). -/
def insertKey : IMap → Int → Int → IMap × Bool
  | [], k, v => ([(k, v)], false)
  | (h, l) :: rest, k, v =>
    if k < h then ((k, v) :: (h, l) :: rest, false)
    else if k = h then ((k, v) :: rest, true)
    else
      let r := insertKey rest k v
      ((h, l) :: r.1, r.2)

/-- The overlap-scan loop of add_range: walk the remaining entries in
ascending key order, stopping at the first entry whose low exceeds
bound = high.saturating_add(1); collect the keys to delete and fold the
running maximum new_high. -/
def mergeScan (bound : Int) : IMap → Int → List Int × Int
  | [], nh => ([], nh)
  | (h, _l) :: rest, nh =>
    if bound < (h, _l).2 then ([], nh)
    else
      let r := mergeScan bound rest (max nh h)
      (h :: r.1, r.2)

/-- IntSet::add_range, together with the conjunction of its two assert!
outcomes (every removal found its key, and the final insert found no
existing entry). -/
def addRangeFull (MIN MAX : Int) (m : IMap) (low high : Int) : IMap × Bool :=
  match find m (satPred MIN low) with
  | [] =>
    let r := insertKey m high low
    (r.1, !r.2)
  | (thisHigh, thisLow) :: rest =>
    let newLow := min low thisLow
    let scanned := mergeScan (satSucc MAX high) rest (max high thisHigh)
    let del := removeAll m (thisHigh :: scanned.1)
    let ins := insertKey del.1 scanned.2 newLow
    (ins.1, del.2 && !ins.2)

/-- IntSet::add_range : the resulting mapping. -/
def add_range (MIN MAX : Int) (m : IMap) (low high : Int) : IMap :=
  (addRangeFull MIN MAX m low high).1

/-- Whether both internal assertions of add_range hold (true = no panic). -/
def addRangeOk (MIN MAX : Int) (m : IMap) (low high : Int) : Bool :=
  (addRangeFull MIN MAX m low high).2

/-- IntSet::add : add_range(n, n). -/
def add (MIN MAX : Int) (m : IMap) (n : Int) : IMap := add_range MIN MAX m n n

/-- IntSet::add_intset : for every entry (high, low) of the other set in
ascending key order, add_range(low, high) on self. -/
def add_intset (MIN MAX : Int) (m : IMap) (other : IMap) : IMap :=
  other.foldl (fun acc e => add_range MIN MAX acc e.2 e.1) m

/-! ## The structural invariant of the representation -/

/-- A stored entry is a well-formed interval inside the domain. -/
def entryOk (MIN MAX : Int) (e : Int × Int) : Prop :=
  MIN ≤ e.2 ∧ e.2 ≤ e.1 ∧ e.1 ≤ MAX

/-- Two consecutive stored intervals are strictly separated:
the second starts strictly after the saturating successor of the first
interval's high endpoint (no overlap, no adjacency). -/
def gap (MAX : Int) (a b : Int × Int) : Prop := satSucc MAX a.1 < b.2

/-- The representation invariant: every entry is a well-formed interval
in [MIN, MAX], and consecutive entries are strictly separated. -/
def Inv (MIN MAX : Int) (m : IMap) : Prop :=
  (∀ e ∈ m, entryOk MIN MAX e) ∧ m.Chain' (gap MAX)

instance (MIN MAX : Int) (e : Int × Int) : Decidable (entryOk MIN MAX e) :=
  inferInstanceAs (Decidable (MIN ≤ e.2 ∧ e.2 ≤ e.1 ∧ e.1 ≤ MAX))

instance (MAX : Int) (a b : Int × Int) : Decidable (gap MAX a b) :=
  inferInstanceAs (Decidable (satSucc MAX a.1 < b.2))

/-- Executable check of the separation chain condition. -/
def chainGapb (MAX : Int) : IMap → Bool
  | [] => true
  | [_] => true
  | a :: b :: t => decide (gap MAX a b) && chainGapb MAX (b :: t)

theorem chainGapb_iff (MAX : Int) :
    ∀ m : IMap, chainGapb MAX m = true ↔ m.Chain' (gap MAX)
  | [] => by simp [chainGapb]
  | [a] => by simp [chainGapb]
  | a :: b :: t => by
    have ih := chainGapb_iff MAX (b :: t)
    simp only [chainGapb, Bool.and_eq_true, decide_eq_true_eq, List.chain'_cons, ih]

/-- Executable check of the representation invariant. -/
def invb (MIN MAX : Int) (m : IMap) : Bool :=
  m.all (fun e => decide (entryOk MIN MAX e)) && chainGapb MAX m

theorem invb_iff (MIN MAX : Int) (m : IMap) :
    invb MIN MAX m = true ↔ Inv MIN MAX m := by
  simp only [invb, Bool.and_eq_true, List.all_eq_true, decide_eq_true_eq,
    chainGapb_iff, Inv]

instance (MIN MAX : Int) (m : IMap) : Decidable (Inv MIN MAX m) :=
  decidable_of_iff _ (invb_iff MIN MAX m)

/-- Semantic membership: n lies in one of the stored closed intervals. -/
def memIntervals (m : IMap) (n : Int) : Prop := ∃ e ∈ m, e.2 ≤ n ∧ n ≤ e.1

instance (m : IMap) (n : Int) : Decidable (memIntervals m n) :=
  inferInstanceAs (Decidable (∃ e ∈ m, e.2 ≤ n ∧ n ≤ e.1))

/-- States reachable from the empty set by the public mutating API, with
every add_range argument satisfying the precondition and lying in the
domain. -/
inductive Reachable (MIN MAX : Int) : IMap → Prop
  | new : Reachable MIN MAX new
  | add_range {m low high} : Reachable MIN MAX m → MIN ≤ low → low ≤ high →
      high ≤ MAX → Reachable MIN MAX (add_range MIN MAX m low high)
  | add {m n} : Reachable MIN MAX m → MIN ≤ n → n ≤ MAX →
      Reachable MIN MAX (add MIN MAX m n)
  | add_intset {m other} : Reachable MIN MAX m → Reachable MIN MAX other →
      Reachable MIN MAX (add_intset MIN MAX m other)

/-! ## Helper lemmas: foldl max -/

theorem le_foldl_max_init (l : List Int) : ∀ a : Int, a ≤ l.foldl max a := by
  induction l with
  | nil => intro a; simp
  | cons x t ih =>
    intro a
    calc a ≤ max a x := le_max_left a x
    _ ≤ t.foldl max (max a x) := ih (max a x)

theorem le_foldl_max_of_mem {l : List Int} {x : Int} (hx : x ∈ l) :
    ∀ a : Int, x ≤ l.foldl max a := by
  induction l with
  | nil => cases hx
  | cons y t ih =>
    intro a
    rcases List.mem_cons.mp hx with rfl | h
    · calc x ≤ max a x := le_max_right a x
      _ ≤ t.foldl max (max a x) := le_foldl_max_init t (max a x)
    · exact ih h (max a y)

theorem foldl_max_le {c : Int} : ∀ (l : List Int) (a : Int),
    a ≤ c → (∀ x ∈ l, x ≤ c) → l.foldl max a ≤ c
  | [], a, ha, _ => ha
  | x :: t, a, ha, hl => by
    have hx : x ≤ c := hl x (List.mem_cons_self _ _)
    exact foldl_max_le t (max a x) (max_le ha hx)
      (fun y hy => hl y (List.mem_cons_of_mem _ hy))

theorem foldl_max_mem_or_init (l : List Int) :
    ∀ a : Int, l.foldl max a = a ∨ l.foldl max a ∈ l := by
  induction l with
  | nil => intro a; left; rfl
  | cons x t ih =>
    intro a
    rcases ih (max a x) with h | h
    · simp only [List.foldl_cons, h]
      rcases max_choice a x with h2 | h2
      · left; exact h2
      · right; rw [h2]; exact List.mem_cons_self x t
    · right; exact List.mem_cons_of_mem x h

/-! ## Helper lemmas: the separation order derived from the invariant -/

/-- A transitive strengthening of the gap relation, implied by the
invariant: the first interval ends strictly before the second starts
(beyond adjacency) and the keys are strictly increasing. -/
def sep (MAX : Int) (a b : Int × Int) : Prop := satSucc MAX a.1 < b.2 ∧ a.1 < b.1

instance (MAX : Int) : IsTrans (Int × Int) (sep MAX) := by
  constructor
  intro a b c hab hbc
  unfold sep satSucc at *
  omega

theorem inv_chain_sep {MIN MAX : Int} : ∀ {m : IMap}, Inv MIN MAX m →
    m.Chain' (sep MAX) := by
  intro m
  induction m with
  | nil => intro _; exact List.chain'_nil
  | cons a t ih =>
    intro h
    obtain ⟨hok, hch⟩ := h
    obtain ⟨hhead, htail⟩ := List.chain'_cons'.mp hch
    refine List.chain'_cons'.mpr ⟨?_, ?_⟩
    · intro y hy
      have hya : y ∈ t := List.mem_of_mem_head? hy
      have hgap : gap MAX a y := hhead y hy
      have hoka : entryOk MIN MAX a := hok a (List.mem_cons_self a t)
      have hoky : entryOk MIN MAX y := hok y (List.mem_cons_of_mem a hya)
      unfold gap satSucc at hgap
      unfold sep satSucc
      unfold entryOk at hoka hoky
      omega
    · exact ih ⟨fun e he => hok e (List.mem_cons_of_mem a he), htail⟩

theorem inv_pairwise {MIN MAX : Int} {m : IMap} (h : Inv MIN MAX m) :
    m.Pairwise (sep MAX) :=
  List.chain'_iff_pairwise.mp (inv_chain_sep h)

/-! ## Characterization of the add_range building blocks -/

/-- The entries strictly below the probe; add_range leaves them alone. -/
def splitPre (MIN : Int) (m : IMap) (low : Int) : IMap :=
  m.takeWhile (fun e => decide (e.1 < satPred MIN low))

/-- The entries swallowed by the overlap scan (beyond the first found one). -/
def scanTaken (MAX : Int) (high : Int) (rest : IMap) : IMap :=
  rest.takeWhile (fun e => !decide (satSucc MAX high < e.2))

/-- The entries behind the overlap scan's stopping point; left alone. -/
def scanKeep (MAX : Int) (high : Int) (rest : IMap) : IMap :=
  rest.dropWhile (fun e => !decide (satSucc MAX high < e.2))

/-- The high endpoint of the merged interval that add_range inserts in the
entry-found case. -/
def mergedHigh (MAX : Int) (high h0 : Int) (rest : IMap) : Int :=
  ((scanTaken MAX high rest).map Prod.fst).foldl max (max high h0)

theorem find_eq_split (MIN : Int) (m : IMap) (low : Int) :
    m = splitPre MIN m low ++ find m (satPred MIN low) :=
  (List.takeWhile_append_dropWhile _ _).symm

theorem scan_eq_split (MAX : Int) (high : Int) (rest : IMap) :
    rest = scanTaken MAX high rest ++ scanKeep MAX high rest :=
  (List.takeWhile_append_dropWhile _ _).symm

theorem mergeScan_eq (bound : Int) : ∀ (l : IMap) (nh : Int),
    mergeScan bound l nh =
      ((l.takeWhile (fun e => !decide (bound < e.2))).map Prod.fst,
       ((l.takeWhile (fun e => !decide (bound < e.2))).map Prod.fst).foldl max nh)
  | [], nh => rfl
  | (h, l) :: rest, nh => by
    by_cases hb : bound < l
    · rw [mergeScan]
      simp only [hb, if_pos, List.takeWhile_cons, decide_eq_true_eq]
      simp [hb]
    · rw [mergeScan]
      simp only [if_neg hb]
      rw [mergeScan_eq bound rest (max nh h)]
      simp [List.takeWhile_cons, hb]

theorem removeKey_append (k v : Int) : ∀ (pre rest : IMap),
    (∀ e ∈ pre, e.1 ≠ k) →
    removeKey (pre ++ (k, v) :: rest) k = (pre ++ rest, true)
  | [], rest, _ => by simp [removeKey]
  | (h, l) :: pre, rest, hk => by
    have hne : h ≠ k := hk (h, l) (List.mem_cons_self _ _)
    rw [List.cons_append, removeKey]
    simp only [if_neg hne]
    rw [removeKey_append k v pre rest (fun e he => hk e (List.mem_cons_of_mem _ he))]
    simp

theorem removeAll_append : ∀ (mid pre keep : IMap),
    (∀ e ∈ mid, ∀ p ∈ pre, p.1 ≠ e.1) →
    removeAll (pre ++ mid ++ keep) (mid.map Prod.fst) = (pre ++ keep, true)
  | [], pre, keep, _ => by simp [removeAll]
  | (k, v) :: mid, pre, keep, hd => by
    rw [List.map_cons, removeAll]
    have h1 : removeKey (pre ++ (k, v) :: mid ++ keep) k = (pre ++ (mid ++ keep), true) := by
      have := removeKey_append k v pre (mid ++ keep)
        (fun p hp => hd (k, v) (List.mem_cons_self _ _) p hp)
      simpa using this
    have h1' : removeKey (pre ++ ((k, v) :: mid ++ keep)) k = (pre ++ (mid ++ keep), true) := by
      simpa using h1
    simp only [List.append_assoc] at h1' ⊢
    rw [h1']
    have h2 := removeAll_append mid pre keep
      (fun e he p hp => hd e (List.mem_cons_of_mem _ he) p hp)
    simp only [List.append_assoc] at h2
    rw [h2]
    simp

theorem insertKey_append (k v : Int) : ∀ (pre keep : IMap),
    (∀ e ∈ pre, e.1 < k) →
    (∀ e ∈ keep.head?, k < e.1) →
    insertKey (pre ++ keep) k v = (pre ++ (k, v) :: keep, false)
  | [], [], _, _ => by simp [insertKey]
  | [], (h, l) :: keep, _, h2 => by
    have hk : k < h := h2 (h, l) rfl
    rw [List.nil_append, insertKey]
    simp [if_pos hk]
  | (h, l) :: pre, keep, h1, h2 => by
    have hh : h < k := h1 (h, l) (List.mem_cons_self _ _)
    rw [List.cons_append, insertKey]
    simp only [if_neg (by omega : ¬ k < h), if_neg (by omega : ¬ k = h)]
    rw [insertKey_append k v pre keep (fun e he => h1 e (List.mem_cons_of_mem _ he)) h2]
    simp

theorem head?_dropWhile_false {α : Type} {p : α → Bool} {l : List α} {x : α}
    (h : (l.dropWhile p).head? = some x) : p x = false := by
  have hh := List.head?_dropWhile_not p l
  rw [h] at hh
  exact hh

/-- add_range when the probe search finds nothing: the new interval is
appended verbatim at the end and both assertions hold. -/
theorem addRangeFull_of_find_nil (MIN MAX : Int) (m : IMap) (low high : Int)
    (hfind : find m (satPred MIN low) = [])
    (hMl : MIN ≤ low) (hlh : low ≤ high) :
    addRangeFull MIN MAX m low high = (m ++ [(high, low)], true) := by
  have h1 : ∀ e ∈ m, e.1 < high := by
    intro e he
    have h2 := List.dropWhile_eq_nil_iff.mp hfind e he
    simp only [decide_eq_true_eq] at h2
    unfold satPred at h2
    omega
  have hins := insertKey_append high low m [] h1 (by simp)
  simp only [List.append_nil] at hins
  unfold addRangeFull
  rw [hfind, hins]
  simp

/-- add_range when the probe search finds a first entry (h0, l0): the
entries below the probe survive, the found entry and the scanned prefix
of the remaining entries are replaced by the single merged interval, the
entries behind the scan's stopping point survive, and both assertions
hold.  Note that the found entry is merged unconditionally, whether or
not it overlaps or touches [low, high]. -/
theorem addRangeFull_of_find_cons (MIN MAX : Int) (m : IMap) (low high h0 l0 : Int)
    (rest : IMap)
    (hInv : Inv MIN MAX m)
    (hfind : find m (satPred MIN low) = (h0, l0) :: rest)
    (hMl : MIN ≤ low) (hlh : low ≤ high) (hhM : high ≤ MAX) :
    addRangeFull MIN MAX m low high =
      (splitPre MIN m low ++
        (mergedHigh MAX high h0 rest, min low l0) :: scanKeep MAX high rest, true) := by
  have hsplit : m = splitPre MIN m low ++ (h0, l0) :: rest := by
    have h := find_eq_split MIN m low
    rw [hfind] at h
    exact h
  have hrest : rest = scanTaken MAX high rest ++ scanKeep MAX high rest :=
    scan_eq_split MAX high rest
  have hok : ∀ e ∈ m, entryOk MIN MAX e := hInv.1
  have hpair : (splitPre MIN m low ++ (h0, l0) :: rest).Pairwise (sep MAX) := by
    rw [← hsplit]
    exact inv_pairwise hInv
  rw [List.pairwise_append] at hpair
  obtain ⟨hpairPre, hpairSuf, hcross⟩ := hpair
  rw [List.pairwise_cons] at hpairSuf
  obtain ⟨hh0rest, hpairRest⟩ := hpairSuf
  have hpre_lt : ∀ e ∈ splitPre MIN m low, e.1 < satPred MIN low := by
    intro e he
    have h := List.mem_takeWhile_imp he
    simpa using h
  have htaken_sub : ∀ e ∈ scanTaken MAX high rest, e ∈ rest := by
    intro e he
    exact (List.takeWhile_sublist _).subset he
  have hkeep_sub : ∀ e ∈ scanKeep MAX high rest, e ∈ rest := by
    intro e he
    exact (List.dropWhile_sublist _).subset he
  -- the collected deletion keys are exactly the keys of the merged block
  have hdel := removeAll_append ((h0, l0) :: scanTaken MAX high rest)
      (splitPre MIN m low) (scanKeep MAX high rest) ?hd
  case hd =>
    intro e he p hp
    have hsep : sep MAX p e := by
      rcases List.mem_cons.mp he with rfl | he2
      · exact hcross p hp (h0, l0) (List.mem_cons_self _ _)
      · exact hcross p hp e (List.mem_cons_of_mem _ (htaken_sub e he2))
    have := hsep.2
    omega
  -- the merged interval's key sits strictly between the survivors
  have hH_hi : high ≤ mergedHigh MAX high h0 rest := by
    unfold mergedHigh
    calc high ≤ max high h0 := le_max_left _ _
    _ ≤ _ := le_foldl_max_init _ _
  have hH_lt_keep : ∀ e ∈ (scanKeep MAX high rest).head?, mergedHigh MAX high h0 rest < e.1 := by
    intro e he
    have hkm : e ∈ scanKeep MAX high rest := List.mem_of_mem_head? he
    have hkrest : e ∈ rest := hkeep_sub e hkm
    have hkm2 : e ∈ m := by
      rw [hsplit]
      exact List.mem_append_right _ (List.mem_cons_of_mem _ hkrest)
    have hoke : entryOk MIN MAX e := hok e hkm2
    have hbound : satSucc MAX high < e.2 := by
      have hp := head?_dropWhile_false he
      simp only [Bool.not_eq_false', decide_eq_true_eq] at hp
      exact hp
    have hhigh_lt : high < e.1 := by
      unfold entryOk at hoke
      unfold satSucc at hbound
      omega
    have hh0_lt : h0 < e.1 := (hh0rest e hkrest).2
    have htk_lt : ∀ k ∈ (scanTaken MAX high rest).map Prod.fst, k < e.1 := by
      intro k hk
      rcases List.mem_map.mp hk with ⟨t, ht, rfl⟩
      have hcross2 : sep MAX t e := by
        rw [hrest] at hpairRest
        rw [List.pairwise_append] at hpairRest
        exact hpairRest.2.2 t ht e hkm
      exact hcross2.2
    unfold mergedHigh
    rcases foldl_max_mem_or_init ((scanTaken MAX high rest).map Prod.fst) (max high h0)
      with h | h
    · rw [h]
      exact max_lt hhigh_lt hh0_lt
    · exact htk_lt _ h
  have hpre_lt_H : ∀ e ∈ splitPre MIN m low, e.1 < mergedHigh MAX high h0 rest := by
    intro e he
    have h := hpre_lt e he
    unfold satPred at h
    omega
  have hins := insertKey_append (mergedHigh MAX high h0 rest) (min low l0)
    (splitPre MIN m low) (scanKeep MAX high rest) hpre_lt_H hH_lt_keep
  -- assemble
  have hms : mergeScan (satSucc MAX high) rest (max high h0) =
      ((scanTaken MAX high rest).map Prod.fst, mergedHigh MAX high h0 rest) := by
    rw [mergeScan_eq]
    rfl
  have hm2 : m = splitPre MIN m low ++ ((h0, l0) :: scanTaken MAX high rest) ++
      scanKeep MAX high rest := by
    conv_lhs => rw [hsplit]
    rw [List.append_assoc, List.cons_append, ← hrest]
  have hto : (h0 :: (scanTaken MAX high rest).map Prod.fst) =
      ((h0, l0) :: scanTaken MAX high rest).map Prod.fst := rfl
  unfold addRangeFull
  rw [hfind]
  dsimp only
  rw [hms]
  dsimp only
  rw [hto]
  conv_lhs => rw [hm2]
  rw [hdel]
  dsimp only
  rw [hins]
  simp

/-- The merged interval covers the found entry and every entry swallowed
by the overlap scan. -/
theorem mid_covered (MIN MAX : Int) (m : IMap) (low high h0 l0 : Int) (rest : IMap)
    (hInv : Inv MIN MAX m)
    (hfind : find m (satPred MIN low) = (h0, l0) :: rest) :
    ∀ e ∈ (h0, l0) :: scanTaken MAX high rest,
      min low l0 ≤ e.2 ∧ e.1 ≤ mergedHigh MAX high h0 rest := by
  have hsplit : m = splitPre MIN m low ++ (h0, l0) :: rest := by
    have h := find_eq_split MIN m low
    rw [hfind] at h
    exact h
  have hpair : (splitPre MIN m low ++ (h0, l0) :: rest).Pairwise (sep MAX) := by
    rw [← hsplit]
    exact inv_pairwise hInv
  have hh0rest : ∀ e ∈ rest, sep MAX (h0, l0) e :=
    (List.pairwise_cons.mp (List.pairwise_append.mp hpair).2.1).1
  have hok0 : entryOk MIN MAX (h0, l0) := by
    refine hInv.1 (h0, l0) ?_
    rw [hsplit]
    exact List.mem_append_right _ (List.mem_cons_self _ _)
  intro e he
  rcases List.mem_cons.mp he with rfl | he2
  · constructor
    · exact min_le_right _ _
    · unfold mergedHigh
      calc h0 ≤ max high h0 := le_max_right _ _
      _ ≤ _ := le_foldl_max_init _ _
  · have herest : e ∈ rest := (List.takeWhile_sublist _).subset he2
    have hsep := hh0rest e herest
    constructor
    · have h1 := hsep.1
      unfold entryOk at hok0
      unfold satSucc at h1
      omega
    · unfold mergedHigh
      exact le_foldl_max_of_mem (List.mem_map_of_mem Prod.fst he2) _

/-- The merged interval is a well-formed interval inside the domain. -/
theorem entryOk_new (MIN MAX : Int) (m : IMap) (low high h0 l0 : Int) (rest : IMap)
    (hInv : Inv MIN MAX m)
    (hfind : find m (satPred MIN low) = (h0, l0) :: rest)
    (hMl : MIN ≤ low) (hlh : low ≤ high) (hhM : high ≤ MAX) :
    entryOk MIN MAX (mergedHigh MAX high h0 rest, min low l0) := by
  have hsplit : m = splitPre MIN m low ++ (h0, l0) :: rest := by
    have h := find_eq_split MIN m low
    rw [hfind] at h
    exact h
  have hok0 : entryOk MIN MAX (h0, l0) := by
    refine hInv.1 (h0, l0) ?_
    rw [hsplit]
    exact List.mem_append_right _ (List.mem_cons_self _ _)
  have hHmax : mergedHigh MAX high h0 rest ≤ MAX := by
    unfold mergedHigh
    refine foldl_max_le _ _ ?_ ?_
    · unfold entryOk at hok0
      omega
    · intro k hk
      rcases List.mem_map.mp hk with ⟨t, ht, rfl⟩
      have htm : t ∈ m := by
        rw [hsplit]
        exact List.mem_append_right _
          (List.mem_cons_of_mem _ ((List.takeWhile_sublist _).subset ht))
      have := hInv.1 t htm
      unfold entryOk at this
      omega
  have hHhigh : high ≤ mergedHigh MAX high h0 rest := by
    unfold mergedHigh
    calc high ≤ max high h0 := le_max_left _ _
    _ ≤ _ := le_foldl_max_init _ _
  unfold entryOk at hok0 ⊢
  refine ⟨?_, ?_, ?_⟩ <;> dsimp only
  · omega
  · omega
  · exact hHmax

/-- Every surviving entry behind the scan's stopping point starts strictly
beyond the saturating successor of the merged interval's high endpoint. -/
theorem gap_new_keep (MIN MAX : Int) (m : IMap) (low high h0 l0 : Int) (rest : IMap)
    (hInv : Inv MIN MAX m)
    (hfind : find m (satPred MIN low) = (h0, l0) :: rest) :
    ∀ e ∈ (scanKeep MAX high rest).head?,
      satSucc MAX (mergedHigh MAX high h0 rest) < e.2 := by
  have hsplit : m = splitPre MIN m low ++ (h0, l0) :: rest := by
    have h := find_eq_split MIN m low
    rw [hfind] at h
    exact h
  have hrest : rest = scanTaken MAX high rest ++ scanKeep MAX high rest :=
    scan_eq_split MAX high rest
  have hpair : (splitPre MIN m low ++ (h0, l0) :: rest).Pairwise (sep MAX) := by
    rw [← hsplit]
    exact inv_pairwise hInv
  have hpairSuf := List.pairwise_cons.mp (List.pairwise_append.mp hpair).2.1
  obtain ⟨hh0rest, hpairRest⟩ := hpairSuf
  intro e he
  have hkm : e ∈ scanKeep MAX high rest := List.mem_of_mem_head? he
  have hkrest : e ∈ rest := (List.dropWhile_sublist _).subset hkm
  have hbound : satSucc MAX high < e.2 := by
    have hp := head?_dropWhile_false he
    simp only [Bool.not_eq_false', decide_eq_true_eq] at hp
    exact hp
  have hsep0 : sep MAX (h0, l0) e := hh0rest e hkrest
  unfold mergedHigh
  rcases foldl_max_mem_or_init ((scanTaken MAX high rest).map Prod.fst) (max high h0)
    with h | h
  · rw [h]
    have h1 := hsep0.1
    unfold satSucc at hbound h1 ⊢
    omega
  · rcases List.mem_map.mp h with ⟨t, ht, heq⟩
    have hsept : sep MAX t e := by
      rw [hrest] at hpairRest
      rw [List.pairwise_append] at hpairRest
      exact hpairRest.2.2 t ht e hkm
    rw [← heq]
    exact hsept.1

/-- add_range preserves the representation invariant. -/
theorem addRange_inv (MIN MAX : Int) (m : IMap) (low high : Int)
    (hInv : Inv MIN MAX m) (hMl : MIN ≤ low) (hlh : low ≤ high) (hhM : high ≤ MAX) :
    Inv MIN MAX (add_range MIN MAX m low high) := by
  rcases hc : find m (satPred MIN low) with _ | ⟨⟨h0, l0⟩, rest⟩
  · unfold add_range
    rw [addRangeFull_of_find_nil MIN MAX m low high hc hMl hlh]
    constructor
    · intro e he
      rcases List.mem_append.mp he with h | h
      · exact hInv.1 e h
      · have he2 : e = (high, low) := by simpa using h
        subst he2
        exact ⟨hMl, hlh, hhM⟩
    · rw [List.chain'_append]
      refine ⟨hInv.2, List.chain'_singleton _, ?_⟩
      intro x hx y hy
      have hy2 : (high, low) = y := by simpa using hy
      subst hy2
      have hxm : x ∈ m := List.mem_of_mem_getLast? hx
      have hall := List.dropWhile_eq_nil_iff.mp hc x hxm
      simp only [decide_eq_true_eq] at hall
      have hokx := hInv.1 x hxm
      unfold entryOk at hokx
      unfold satPred at hall
      unfold gap satSucc
      dsimp only
      omega
  · have hmain := addRangeFull_of_find_cons MIN MAX m low high h0 l0 rest hInv hc hMl hlh hhM
    unfold add_range
    rw [hmain]
    dsimp only
    have hsplit : m = splitPre MIN m low ++ (h0, l0) :: rest := by
      have h := find_eq_split MIN m low
      rw [hc] at h
      exact h
    have hrest : rest = scanTaken MAX high rest ++ scanKeep MAX high rest :=
      scan_eq_split MAX high rest
    have hchm : (splitPre MIN m low ++ (h0, l0) :: rest).Chain' (gap MAX) := by
      rw [← hsplit]
      exact hInv.2
    rw [List.chain'_append] at hchm
    obtain ⟨hchPre, hchSuf, hlink⟩ := hchm
    constructor
    · intro e he
      rcases List.mem_append.mp he with h | h
      · refine hInv.1 e ?_
        rw [hsplit]
        exact List.mem_append_left _ h
      · rcases List.mem_cons.mp h with rfl | h2
        · exact entryOk_new MIN MAX m low high h0 l0 rest hInv hc hMl hlh hhM
        · refine hInv.1 e ?_
          rw [hsplit]
          refine List.mem_append_right _ (List.mem_cons_of_mem _ ?_)
          rw [hrest]
          exact List.mem_append_right _ h2
    · rw [List.chain'_append]
      refine ⟨hchPre, ?_, ?_⟩
      · refine List.chain'_cons'.mpr ⟨?_, ?_⟩
        · intro y hy
          exact gap_new_keep MIN MAX m low high h0 l0 rest hInv hc y hy
        · have hchRest : rest.Chain' (gap MAX) := (List.chain'_cons'.mp hchSuf).2
          rw [hrest] at hchRest
          exact (List.chain'_append.mp hchRest).2.1
      · intro x hx y hy
        have hy2 : (mergedHigh MAX high h0 rest, min low l0) = y := by simpa using hy
        subst hy2
        have hxpre : x ∈ splitPre MIN m low :=
          List.mem_of_mem_getLast? hx
        have hxlt : x.1 < satPred MIN low := by
          have h := List.mem_takeWhile_imp hxpre
          simpa using h
        have hokx : entryOk MIN MAX x := by
          refine hInv.1 x ?_
          rw [hsplit]
          exact List.mem_append_left _ hxpre
        have hgap0 : gap MAX x (h0, l0) := hlink x hx (h0, l0) rfl
        unfold entryOk at hokx
        unfold gap satSucc at hgap0 ⊢
        unfold satPred at hxlt
        dsimp only at hgap0 ⊢
        omega

/-- Under the invariant, contains answers exactly semantic membership. -/
theorem contains_iff_mem (MIN MAX : Int) (m : IMap) (n : Int) (hInv : Inv MIN MAX m) :
    contains m n = true ↔ memIntervals m n := by
  constructor
  · intro h
    unfold contains at h
    rcases hc : find m n with _ | ⟨⟨h1, l1⟩, t⟩
    · rw [hc] at h
      cases h
    · rw [hc] at h
      have hl : l1 ≤ n := by simpa using h
      unfold find at hc
      have hhd : (m.dropWhile (fun e => decide (e.1 < n))).head? = some (h1, l1) := by
        rw [hc]
        rfl
      have hp := head?_dropWhile_false hhd
      simp only [decide_eq_false_iff_not, not_lt] at hp
      refine ⟨(h1, l1), ?_, hl, hp⟩
      have : (h1, l1) ∈ m.dropWhile (fun e => decide (e.1 < n)) := by
        rw [hc]
        exact List.mem_cons_self _ _
      exact (List.dropWhile_sublist _).subset this
  · rintro ⟨e, hem, hl, hh⟩
    unfold contains
    rcases hc : find m n with _ | ⟨⟨h1, l1⟩, t⟩
    · exfalso
      unfold find at hc
      have h2 := List.dropWhile_eq_nil_iff.mp hc e hem
      simp only [decide_eq_true_eq] at h2
      omega
    · unfold find at hc
      have hhd : (m.dropWhile (fun e => decide (e.1 < n))).head? = some (h1, l1) := by
        rw [hc]
        rfl
      have hp := head?_dropWhile_false hhd
      simp only [decide_eq_false_iff_not, not_lt] at hp
      -- e cannot be below the probe, so it sits in the dropWhile suffix
      have hm2 : m = m.takeWhile (fun e => decide (e.1 < n)) ++
          m.dropWhile (fun e => decide (e.1 < n)) :=
        (List.takeWhile_append_dropWhile _ _).symm
      have hem2 : e ∈ m.takeWhile (fun e => decide (e.1 < n)) ++
          m.dropWhile (fun e => decide (e.1 < n)) := by
        rw [← hm2]
        exact hem
      have hsuf : e ∈ (h1, l1) :: t := by
        rcases List.mem_append.mp hem2 with h2 | h2
        · exfalso
          have h3 := List.mem_takeWhile_imp h2
          simp only [decide_eq_true_eq] at h3
          omega
        · rw [hc] at h2
          exact h2
      rcases List.mem_cons.mp hsuf with rfl | h2
      · simpa using hl
      · exfalso
        have hpair : ((h1, l1) :: t).Pairwise (sep MAX) := by
          have hs : List.Sublist ((h1, l1) :: t) m := by
            rw [← hc]
            exact List.dropWhile_sublist _
          exact (inv_pairwise hInv).sublist hs
        have hmem1 : (h1, l1) ∈ m.dropWhile (fun e => decide (e.1 < n)) := by
          rw [hc]
          exact List.mem_cons_self _ _
        have hok1 : entryOk MIN MAX (h1, l1) :=
          hInv.1 (h1, l1) ((List.dropWhile_sublist _).subset hmem1)
        have hsep : sep MAX (h1, l1) e :=
          (List.pairwise_cons.mp hpair).1 e h2
        have h3 := hsep.1
        unfold satSucc at h3
        unfold entryOk at hok1
        dsimp only at h3 hok1
        omega

/-- The merged high endpoint dominates the asked-for high endpoint. -/
theorem high_le_mergedHigh (MAX high h0 : Int) (rest : IMap) :
    high ≤ mergedHigh MAX high h0 rest := by
  unfold mergedHigh
  calc high ≤ max high h0 := le_max_left _ _
  _ ≤ _ := le_foldl_max_init _ _

theorem scanKeep_head_bound (MAX high : Int) (rest : IMap) :
    ∀ e ∈ (scanKeep MAX high rest).head?, satSucc MAX high < e.2 := by
  intro e he
  have hp := head?_dropWhile_false he
  simp only [Bool.not_eq_false', decide_eq_true_eq] at hp
  exact hp

theorem scanTaken_nil_of_head (MAX high : Int) (l : IMap)
    (h : ∀ e ∈ l.head?, satSucc MAX high < e.2) :
    scanTaken MAX high l = [] := by
  cases l with
  | nil => rfl
  | cons e t =>
    have he := h e rfl
    unfold scanTaken
    refine List.takeWhile_cons_of_neg ?_
    simp only [Bool.not_eq_true', decide_eq_false_iff_not, not_not]
    simpa using he

theorem scanKeep_self_of_head (MAX high : Int) (l : IMap)
    (h : ∀ e ∈ l.head?, satSucc MAX high < e.2) :
    scanKeep MAX high l = l := by
  cases l with
  | nil => rfl
  | cons e t =>
    have he := h e rfl
    unfold scanKeep
    refine List.dropWhile_cons_of_neg ?_
    simp only [Bool.not_eq_true', decide_eq_false_iff_not, not_not]
    simpa using he

theorem find_append_entry (MIN low : Int) (pre keep : IMap) (H L : Int)
    (hpre : ∀ e ∈ pre, e.1 < satPred MIN low) (hH : satPred MIN low ≤ H) :
    find (pre ++ (H, L) :: keep) (satPred MIN low) = (H, L) :: keep := by
  unfold find
  rw [List.dropWhile_append_of_pos (by intro a ha; simpa using hpre a ha)]
  refine List.dropWhile_cons_of_neg ?_
  simp only [decide_eq_true_eq]
  omega

theorem splitPre_append_entry (MIN low : Int) (pre keep : IMap) (H L : Int)
    (hpre : ∀ e ∈ pre, e.1 < satPred MIN low) (hH : satPred MIN low ≤ H) :
    splitPre MIN (pre ++ (H, L) :: keep) low = pre := by
  unfold splitPre
  rw [List.takeWhile_append_of_pos (by intro a ha; simpa using hpre a ha)]
  rw [List.takeWhile_cons_of_neg (by simp only [decide_eq_true_eq]; omega)]
  simp

/-- add_intset preserves the invariant when the source set's entries are
well-formed intervals in the domain. -/
theorem add_intset_inv (MIN MAX : Int) : ∀ (other m : IMap),
    Inv MIN MAX m → (∀ e ∈ other, entryOk MIN MAX e) →
    Inv MIN MAX (add_intset MIN MAX m other)
  | [], m, hm, _ => hm
  | e :: t, m, hm, hok => by
    have hoke := hok e (List.mem_cons_self _ _)
    unfold entryOk at hoke
    have h1 : Inv MIN MAX (add_range MIN MAX m e.2 e.1) :=
      addRange_inv MIN MAX m e.2 e.1 hm hoke.1 hoke.2.1 hoke.2.2
    have h2 := add_intset_inv MIN MAX t (add_range MIN MAX m e.2 e.1) h1
      (fun x hx => hok x (List.mem_cons_of_mem _ hx))
    simpa [add_intset] using h2

/-- Every reachable state satisfies the invariant. -/
theorem reachable_inv (MIN MAX : Int) (m : IMap) (h : Reachable MIN MAX m) :
    Inv MIN MAX m := by
  induction h with
  | new =>
    refine ⟨?_, List.chain'_nil⟩
    intro e he
    simp [new] at he
  | add_range _ hMl hlh hhM ih => exact addRange_inv _ _ _ _ _ ih hMl hlh hhM
  | add _ hMl hhM ih => exact addRange_inv _ _ _ _ _ ih hMl le_rfl hhM
  | add_intset _ _ ih iho => exact add_intset_inv _ _ _ _ ih iho.1

/-- Coverage of the add_range result: the requested range is covered, and
every previously covered value stays covered. -/
theorem addRange_mem_covers (MIN MAX : Int) (m : IMap) (low high n : Int)
    (hInv : Inv MIN MAX m) (hMl : MIN ≤ low) (hlh : low ≤ high) (hhM : high ≤ MAX) :
    (low ≤ n → n ≤ high → memIntervals (add_range MIN MAX m low high) n) ∧
    (memIntervals m n → memIntervals (add_range MIN MAX m low high) n) := by
  rcases hc : find m (satPred MIN low) with _ | ⟨⟨h0, l0⟩, rest⟩
  · unfold add_range
    rw [addRangeFull_of_find_nil MIN MAX m low high hc hMl hlh]
    constructor
    · intro h1 h2
      exact ⟨(high, low), List.mem_append_right _ (List.mem_cons_self _ _), h1, h2⟩
    · rintro ⟨e, hem, hl, hh⟩
      exact ⟨e, List.mem_append_left _ hem, hl, hh⟩
  · have hmain := addRangeFull_of_find_cons MIN MAX m low high h0 l0 rest hInv hc hMl hlh hhM
    unfold add_range
    rw [hmain]
    dsimp only
    have hsplit : m = splitPre MIN m low ++ (h0, l0) :: rest := by
      have h := find_eq_split MIN m low
      rw [hc] at h
      exact h
    have hrest : rest = scanTaken MAX high rest ++ scanKeep MAX high rest :=
      scan_eq_split MAX high rest
    have hnew_mem : (mergedHigh MAX high h0 rest, min low l0) ∈
        splitPre MIN m low ++ (mergedHigh MAX high h0 rest, min low l0) ::
          scanKeep MAX high rest :=
      List.mem_append_right _ (List.mem_cons_self _ _)
    constructor
    · intro h1 h2
      refine ⟨(mergedHigh MAX high h0 rest, min low l0), hnew_mem, ?_, ?_⟩
      · dsimp only
        omega
      · dsimp only
        have := high_le_mergedHigh MAX high h0 rest
        omega
    · rintro ⟨e, hem, hl, hh⟩
      rw [hsplit] at hem
      rcases List.mem_append.mp hem with h2 | h2
      · exact ⟨e, List.mem_append_left _ h2, hl, hh⟩
      · rcases List.mem_cons.mp h2 with rfl | h3
        · refine ⟨(mergedHigh MAX high h0 rest, min low l0), hnew_mem, ?_, ?_⟩
          · have hmc := mid_covered MIN MAX m low high h0 l0 rest hInv hc
              (h0, l0) (List.mem_cons_self _ _)
            dsimp only
            dsimp only at hmc
            omega
          · have hmc := mid_covered MIN MAX m low high h0 l0 rest hInv hc
              (h0, l0) (List.mem_cons_self _ _)
            dsimp only
            dsimp only at hmc
            omega
        · rw [hrest] at h3
          rcases List.mem_append.mp h3 with h4 | h4
          · have hmc := mid_covered MIN MAX m low high h0 l0 rest hInv hc
              e (List.mem_cons_of_mem _ h4)
            refine ⟨(mergedHigh MAX high h0 rest, min low l0), hnew_mem, ?_, ?_⟩
            · dsimp only
              omega
            · dsimp only
              omega
          · exact ⟨e, List.mem_append_right _ (List.mem_cons_of_mem _ h4), hl, hh⟩

/-- If the overlap scan takes nothing, the merged high endpoint is just
the running maximum it started from. -/
theorem mergedHigh_of_taken_nil (MAX high b : Int) (l : IMap)
    (h : scanTaken MAX high l = []) (hb : high ≤ b) :
    mergedHigh MAX high b l = b := by
  unfold mergedHigh
  rw [h]
  simpa using max_eq_right hb

/-! ## Claim theorems -/

/-- Claim C1 (code bug): membership correctness fails.  Over the domain
[0, 100], starting from the empty set, addRange(10, 20) followed by
addRange(1, 3) (both calls satisfy low <= high) yields a set in which
contains(5) is true, although 5 lies in neither added range: the merge
step swallows the first entry found at the probe without re-checking that
its low is at most high + 1, fusing the two disjoint ranges into [1, 20]. -/
theorem contains_spurious_after_disjoint_addRange :
    contains (add_range 0 100 (add_range 0 100 new 10 20) 1 3) 5 = true ∧
    add_range 0 100 (add_range 0 100 new 10 20) 1 3 = [(20, 1)] ∧
    ¬ ((10 : Int) ≤ 5 ∧ (5 : Int) ≤ 20) ∧ ¬ ((1 : Int) ≤ 5 ∧ (5 : Int) ≤ 3) := by
  decide

/-- Claim C2 (code bug): with the invariant-satisfying stored set
{[10, 20]}, the call addRange(1, 3) finds the entry (high 20, low 10) at
the probe and 10 > 3 + 1, so by the claim the inserted interval should be
exactly [1, 3] with [10, 20] kept; instead the code merges
unconditionally: the stored interval [10, 20] disappears and the inserted
interval is [1, 20]. -/
theorem disjoint_insert_not_verbatim :
    Inv 0 100 [(20, 10)] ∧ (3 : Int) + 1 < 10 ∧
    find [(20, 10)] (satPred 0 1) = [(20, 10)] ∧
    add_range 0 100 [(20, 10)] 1 3 = [(20, 1)] := by
  decide

/-- Claim C3: after any sequence of new, add, addRange (with the
precondition and the arguments inside the domain) and add_intset
operations, every stored interval has low <= high, and in storage order
the intervals are strictly increasing, pairwise disjoint and
non-adjacent: every later interval starts strictly after the saturating
successor of every earlier interval's high endpoint. -/
theorem reachable_ordered_disjoint (MIN MAX : Int) (m : IMap)
    (h : Reachable MIN MAX m) :
    (∀ e ∈ m, e.2 ≤ e.1) ∧
    m.Pairwise (fun a b => a.1 < b.2 ∧ satSucc MAX a.1 < b.2 ∧ a.1 < b.1) := by
  have hInv := reachable_inv MIN MAX m h
  refine ⟨fun e he => (hInv.1 e he).2.1, ?_⟩
  refine (inv_pairwise hInv).imp_of_mem ?_
  intro a b ha hb hsep
  have hoka := hInv.1 a ha
  have h1 := hsep.1
  have h2 := hsep.2
  unfold entryOk at hoka
  unfold satSucc at h1 ⊢
  exact ⟨by omega, by omega, h2⟩

/-- Witness for C3 at a concrete reachable state. -/
theorem reachable_ordered_disjoint_witness :
    (∀ e ∈ add_range 0 100 (add_range 0 100 new 8 9) 1 3, e.2 ≤ e.1) ∧
    (add_range 0 100 (add_range 0 100 new 8 9) 1 3).Pairwise
      (fun a b => a.1 < b.2 ∧ satSucc 100 a.1 < b.2 ∧ a.1 < b.1) :=
  reachable_ordered_disjoint 0 100 _
    (Reachable.add_range
      (Reachable.add_range Reachable.new (by decide) (by decide) (by decide))
      (by decide) (by decide) (by decide))

/-- Claim C4: after addRange(low, high) on an invariant-satisfying set
(with the precondition and the arguments inside the domain), every n in
[low, high] is contained. -/
theorem addRange_contains_range (MIN MAX : Int) (m : IMap) (low high n : Int)
    (hInv : Inv MIN MAX m) (hMl : MIN ≤ low) (hlh : low ≤ high) (hhM : high ≤ MAX)
    (h1 : low ≤ n) (h2 : n ≤ high) :
    contains (add_range MIN MAX m low high) n = true :=
  (contains_iff_mem MIN MAX _ n (addRange_inv MIN MAX m low high hInv hMl hlh hhM)).mpr
    ((addRange_mem_covers MIN MAX m low high n hInv hMl hlh hhM).1 h1 h2)

/-- Witness for C4 at a concrete input. -/
theorem addRange_contains_range_witness :
    Inv 0 100 [(9, 8)] ∧ contains (add_range 0 100 [(9, 8)] 1 3) 2 = true :=
  ⟨by decide, addRange_contains_range 0 100 [(9, 8)] 1 3 2 (by decide) (by decide)
    (by decide) (by decide) (by decide) (by decide)⟩

/-- Claim C5 (code bug): union correctness fails.  With A = {[10, 20]}
and B = {[1, 3]} (both invariant-satisfying), A.unionFrom(B) produces a
set in which 5 is contained, although 5 was contained in neither original
set: the single add_range(1, 3) call performed by the union merges the
disjoint interval [10, 20] into [1, 20].  (B is passed read-only and in
this functional model is a value, so B itself is unchanged.) -/
theorem add_intset_spurious_member :
    Inv 0 100 [(20, 10)] ∧ Inv 0 100 [(3, 1)] ∧
    add_intset 0 100 [(20, 10)] [(3, 1)] = [(20, 1)] ∧
    contains (add_intset 0 100 [(20, 10)] [(3, 1)]) 5 = true ∧
    contains [(20, 10)] 5 = false ∧ contains [(3, 1)] 5 = false := by
  decide

/-- Claim C6 counterexample: addRange(5, 3), with low > high, on the
empty set does not fail fast: both internal assertions pass and the call
stores the pair as given (key 3 mapped to low 5), silently proceeding. -/
theorem addRange_no_precondition_check_cex :
    addRangeOk 0 100 new 5 3 = true ∧ add_range 0 100 new 5 3 = [(3, 5)] := by
  decide

/-- Claim C6 amended: addRange performs no precondition check; a call
with low > high on the empty set proceeds through the normal
no-entry-found path, triggers no assertion, and stores the pair
unnormalized (keyed by high, with value low > high). -/
theorem addRange_low_gt_high_silent (MIN MAX low high : Int) (_h : high < low) :
    add_range MIN MAX new low high = [(high, low)] ∧
    addRangeOk MIN MAX new low high = true :=
  ⟨rfl, rfl⟩

/-- Witness for the amended C6. -/
theorem addRange_low_gt_high_silent_witness :
    (3 : Int) < 5 ∧
    (add_range 0 100 new 5 3 = [(3, 5)] ∧ addRangeOk 0 100 new 5 3 = true) :=
  ⟨by decide, addRange_low_gt_high_silent 0 100 5 3 (by decide)⟩

/-- Claim C7: on an invariant-satisfying set, with low <= high inside the
domain, every removal performed by addRange finds its key and the final
insertion finds no existing entry, so neither assert! fires. -/
theorem addRange_asserts_pass (MIN MAX : Int) (m : IMap) (low high : Int)
    (hInv : Inv MIN MAX m) (hMl : MIN ≤ low) (hlh : low ≤ high) (hhM : high ≤ MAX) :
    addRangeOk MIN MAX m low high = true := by
  rcases hc : find m (satPred MIN low) with _ | ⟨⟨h0, l0⟩, rest⟩
  · unfold addRangeOk
    rw [addRangeFull_of_find_nil MIN MAX m low high hc hMl hlh]
  · unfold addRangeOk
    rw [addRangeFull_of_find_cons MIN MAX m low high h0 l0 rest hInv hc hMl hlh hhM]

/-- Witness for C7 on a state where addRange really deletes an entry. -/
theorem addRange_asserts_pass_witness :
    Inv 0 100 [(3, 1), (20, 10)] ∧ addRangeOk 0 100 [(3, 1), (20, 10)] 5 12 = true :=
  ⟨by decide, addRange_asserts_pass 0 100 [(3, 1), (20, 10)] 5 12 (by decide) (by decide)
    (by decide) (by decide)⟩

/-- Claim C8: addRange(MIN, MIN) on the empty set: the probe saturates at
the domain minimum instead of wrapping, the call succeeds (no assertion
fires) and the resulting set stores exactly the single interval
[(MIN, MIN)]. -/
theorem addRange_min_min (MIN MAX : Int) :
    satPred MIN MIN = MIN ∧
    add_range MIN MAX new MIN MIN = [(MIN, MIN)] ∧
    addRangeOk MIN MAX new MIN MIN = true := by
  refine ⟨?_, rfl, rfl⟩
  unfold satPred
  omega

/-- Claim C9: on an invariant-satisfying set, adding the same range twice
(precondition satisfied, arguments inside the domain) yields exactly the
same stored mapping as adding it once. -/
theorem addRange_idempotent (MIN MAX : Int) (m : IMap) (low high : Int)
    (hInv : Inv MIN MAX m) (hMl : MIN ≤ low) (hlh : low ≤ high) (hhM : high ≤ MAX) :
    add_range MIN MAX (add_range MIN MAX m low high) low high =
      add_range MIN MAX m low high := by
  have hInv2 := addRange_inv MIN MAX m low high hInv hMl hlh hhM
  rcases hc : find m (satPred MIN low) with _ | ⟨⟨h0, l0⟩, rest⟩
  · have hr : add_range MIN MAX m low high = m ++ [(high, low)] := by
      unfold add_range
      rw [addRangeFull_of_find_nil MIN MAX m low high hc hMl hlh]
    have hpre2 : ∀ e ∈ m, e.1 < satPred MIN low := by
      intro e he
      have h2 := List.dropWhile_eq_nil_iff.mp hc e he
      simpa using h2
    have hple : satPred MIN low ≤ high := by
      unfold satPred
      omega
    have hfind2 := find_append_entry MIN low m [] high low hpre2 hple
    have hInv2' : Inv MIN MAX (m ++ [(high, low)]) := by
      rw [hr] at hInv2
      exact hInv2
    have hr2 : add_range MIN MAX (m ++ [(high, low)]) low high = m ++ [(high, low)] := by
      unfold add_range
      rw [addRangeFull_of_find_cons MIN MAX _ low high high low [] hInv2' hfind2 hMl hlh hhM]
      dsimp only
      rw [splitPre_append_entry MIN low m [] high low hpre2 hple]
      rw [mergedHigh_of_taken_nil MAX high high [] rfl le_rfl]
      have hsk : scanKeep MAX high ([] : IMap) = [] := rfl
      rw [hsk]
      have hmin : min low low = low := by omega
      rw [hmin]
    rw [hr, hr2]
  · have hmain := addRangeFull_of_find_cons MIN MAX m low high h0 l0 rest hInv hc hMl hlh hhM
    have hr : add_range MIN MAX m low high =
        splitPre MIN m low ++
          (mergedHigh MAX high h0 rest, min low l0) :: scanKeep MAX high rest := by
      unfold add_range
      rw [hmain]
    have hpre2 : ∀ e ∈ splitPre MIN m low, e.1 < satPred MIN low := by
      intro e he
      have h2 := List.mem_takeWhile_imp he
      simpa using h2
    have hH : satPred MIN low ≤ mergedHigh MAX high h0 rest := by
      have h2 := high_le_mergedHigh MAX high h0 rest
      unfold satPred
      omega
    have hfind2 := find_append_entry MIN low (splitPre MIN m low) (scanKeep MAX high rest)
      (mergedHigh MAX high h0 rest) (min low l0) hpre2 hH
    have hInv2' : Inv MIN MAX (splitPre MIN m low ++
        (mergedHigh MAX high h0 rest, min low l0) :: scanKeep MAX high rest) := by
      rw [hr] at hInv2
      exact hInv2
    have hkb := scanKeep_head_bound MAX high rest
    have hr2 : add_range MIN MAX (splitPre MIN m low ++
        (mergedHigh MAX high h0 rest, min low l0) :: scanKeep MAX high rest) low high =
        splitPre MIN m low ++
          (mergedHigh MAX high h0 rest, min low l0) :: scanKeep MAX high rest := by
      unfold add_range
      rw [addRangeFull_of_find_cons MIN MAX _ low high (mergedHigh MAX high h0 rest)
        (min low l0) (scanKeep MAX high rest) hInv2' hfind2 hMl hlh hhM]
      dsimp only
      rw [splitPre_append_entry MIN low (splitPre MIN m low) (scanKeep MAX high rest)
        (mergedHigh MAX high h0 rest) (min low l0) hpre2 hH]
      rw [mergedHigh_of_taken_nil MAX high (mergedHigh MAX high h0 rest)
        (scanKeep MAX high rest) (scanTaken_nil_of_head MAX high _ hkb)
        (high_le_mergedHigh MAX high h0 rest)]
      rw [scanKeep_self_of_head MAX high _ hkb]
      have hmin : min low (min low l0) = min low l0 := by omega
      rw [hmin]
    rw [hr, hr2]

/-- Witness for C9 at a concrete input (the call merges an entry). -/
theorem addRange_idempotent_witness :
    Inv 0 100 [(20, 10)] ∧
    add_range 0 100 (add_range 0 100 [(20, 10)] 1 3) 1 3 =
      add_range 0 100 [(20, 10)] 1 3 :=
  ⟨by decide, addRange_idempotent 0 100 [(20, 10)] 1 3 (by decide) (by decide)
    (by decide) (by decide)⟩

/-- Claim C10: membership is monotone: every n contained before an
addRange(low, high) call (precondition satisfied, arguments inside the
domain) is still contained afterwards. -/
theorem contains_monotone_addRange (MIN MAX : Int) (m : IMap) (low high n : Int)
    (hInv : Inv MIN MAX m) (hMl : MIN ≤ low) (hlh : low ≤ high) (hhM : high ≤ MAX)
    (hc : contains m n = true) :
    contains (add_range MIN MAX m low high) n = true :=
  (contains_iff_mem MIN MAX _ n (addRange_inv MIN MAX m low high hInv hMl hlh hhM)).mpr
    ((addRange_mem_covers MIN MAX m low high n hInv hMl hlh hhM).2
      ((contains_iff_mem MIN MAX m n hInv).mp hc))

/-- Witness for C10 at a concrete input (the containing entry is the one
the call deletes and re-merges). -/
theorem contains_monotone_addRange_witness :
    Inv 0 100 [(20, 10)] ∧ contains [(20, 10)] 15 = true ∧
    contains (add_range 0 100 [(20, 10)] 1 3) 15 = true :=
  ⟨by decide, by decide, contains_monotone_addRange 0 100 [(20, 10)] 1 3 15 (by decide)
    (by decide) (by decide) (by decide) (by decide)⟩

end IntSet
